import Mathlib

/-!
Verification of the wavy audio pipeline (shallow embedding).

Each C++ component named in the claims is translated into an executable Lean
definition over explicit state:

* `Mixer` / `MixerController` (mixer.h, the mixer translation unit): sources
  already admitted to the mixer are modelled as the stream of samples they
  will still produce (`List ℚ`); `next_sample` on such a stream is `head?`
  and end-of-stream is the empty list, matching the `Source` contract of
  permanent end-of-stream.
* `SampleRateConverter`, `ChannelConverter` (conversions header).
* The decorator chain `Amplify` / `Duration` / `Delay` / `Filter` /
  `Buffered` (source.h and the Buffered header), as a static shape `Sh`
  with a dependent per-shape state `St`, so that the `Buffered` refill loop
  recurses structurally on the shape.
* The hardware-callback lambda and the render loop of main.cpp.

`double` samples are modelled as `ℚ`: none of the verified claims depends on
IEEE-754 rounding (the pass-through claims move samples without arithmetic,
and the interpolation claims are about which linear combination is formed).
Machine counters (`uint32_t _sample_count`, `uint64_t` nanosecond budgets)
are modelled as `ℕ`; the claims under verification only inspect them through
`%` and comparisons, never across a wrap.
-/

/-! ## Mixer and MixerController (mixer.h / mixer translation unit)

A source held by the mixer is the stream of samples it will still produce.
`MixerController::add` wraps the source in a `Converter` before queueing it;
the conversion itself is verified separately on `SampleRateConverter` and
`ChannelConverter`, so here a pending source is already the converted
stream. -/

structure Mixer where
  channel_count : ℕ
  sample_rate : ℕ
  /-- `MixerController::_has_pending` (atomic flag). -/
  has_pending : Bool
  /-- `MixerController::_pending_sources`. -/
  pending_sources : List (List ℚ)
  /-- `Mixer::_sample_count` (`uint32_t` in the source). -/
  sample_count : ℕ
  /-- `Mixer::_current_sources`. -/
  current_sources : List (List ℚ)

/-- `MixerController::add`: append to the pending list and set the flag. -/
def MixerController.add (m : Mixer) (s : List ℚ) : Mixer :=
  { m with pending_sources := m.pending_sources ++ [s], has_pending := true }

/-- `Mixer::_start_pending_sources`: with the lock held, every pending source
is moved to `_current_sources` when `_sample_count % _channel_count == 0`,
otherwise every pending source is kept pending; the flag is then stored as
"pending list non-empty". -/
def Mixer.startPendingSources (m : Mixer) : Mixer :=
  let in_step := m.sample_count % m.channel_count = 0
  let current' := if in_step then m.current_sources ++ m.pending_sources else m.current_sources
  let pending' := if in_step then ([] : List (List ℚ)) else m.pending_sources
  { m with
      current_sources := current'
      pending_sources := pending'
      has_pending := !pending'.isEmpty }

/-- `Mixer::_sum_current_sources`: pull every current source once, sum the
produced samples, and keep (advanced) exactly the sources that produced a
sample; a source answering end-of-stream is dropped. -/
def Mixer.sumCurrentSources (sources : List (List ℚ)) : ℚ × List (List ℚ) :=
  sources.foldl
    (fun acc s =>
      match s with
      | x :: rest => (acc.1 + x, acc.2 ++ [rest])
      | [] => acc)
    (0, [])

/-- `Mixer::next_sample`. -/
def Mixer.next (m : Mixer) : Option ℚ × Mixer :=
  let m1 := if m.has_pending then m.startPendingSources else m
  let m2 := { m1 with sample_count := m1.sample_count + 1 }
  let r := Mixer.sumCurrentSources m2.current_sources
  let m3 := { m2 with current_sources := r.2 }
  (if r.2.isEmpty then none else some r.1, m3)

/-! ### Claim C1 -/

/-- C1: when `Mixer::next_sample` observes the has-pending flag set, the
admission step moves the pending sources (all of them, hence any batch at
once) into the active set exactly when the global sample counter is a
multiple of the channel count; otherwise all of them stay pending.  After
the pass the flag is set iff the remaining pending list is non-empty, and
`next_sample` leaves that pending list and flag as the admission pass
produced them.  `MixerController::add` always leaves the flag set. -/
theorem mixer_admission_frame_boundary (m : Mixer) (h : m.has_pending = true) :
    (m.sample_count % m.channel_count = 0 →
      m.startPendingSources.current_sources = m.current_sources ++ m.pending_sources ∧
      m.startPendingSources.pending_sources = []) ∧
    (m.sample_count % m.channel_count ≠ 0 →
      m.startPendingSources.current_sources = m.current_sources ∧
      m.startPendingSources.pending_sources = m.pending_sources) ∧
    (m.startPendingSources.has_pending = true ↔ m.startPendingSources.pending_sources ≠ []) ∧
    (Mixer.next m).2.pending_sources = m.startPendingSources.pending_sources ∧
    (Mixer.next m).2.has_pending = m.startPendingSources.has_pending ∧
    (∀ s, (MixerController.add m s).has_pending = true) := by
  refine ⟨?_, ?_, ?_, ?_, ?_, ?_⟩
  · intro hstep
    simp [Mixer.startPendingSources, hstep]
  · intro hstep
    simp [Mixer.startPendingSources, hstep]
  · simp [Mixer.startPendingSources]
  · simp [Mixer.next, h]
  · simp [Mixer.next, h]
  · intro s
    simp [MixerController.add]

/-- Witness for C1 at a concrete mixer state: two sources pending at a frame
boundary are admitted together and the flag is cleared. -/
theorem mixer_admission_frame_boundary_witness :
    (let m : Mixer :=
      { channel_count := 2, sample_rate := 48000, has_pending := true
        pending_sources := [[1, 2], [3]], sample_count := 4, current_sources := [[5]] }
     m.startPendingSources.current_sources = [[5], [1, 2], [3]] ∧
       m.startPendingSources.pending_sources = [] ∧
       m.startPendingSources.has_pending = false) := by
  have h := mixer_admission_frame_boundary
    { channel_count := 2, sample_rate := 48000, has_pending := true
      pending_sources := [[1, 2], [3]], sample_count := 4, current_sources := [[5]] }
    (by decide)
  refine ⟨h.1 (by decide) |>.1, h.1 (by decide) |>.2, ?_⟩
  have h3 := h.2.2.1
  simp [Mixer.startPendingSources] at h3 ⊢

/-! ### Claim C2 -/

/-- Mixer state refuting C2's "never returns none while any source is still
active or pending": one source is pending, the sample counter sits mid-frame
(1 % 2 ≠ 0), and no source is active. -/
def c2PendingMidFrame : Mixer :=
  { channel_count := 2, sample_rate := 48000, has_pending := true
    pending_sources := [[1, 2]], sample_count := 1, current_sources := [] }

/-- Counterexample to C2 as stated: at `c2PendingMidFrame` the call observes
the pending flag, cannot admit (not a frame boundary), and returns none even
though a source is still pending — both before and after the call. -/
theorem mixer_none_while_pending_cex :
    (Mixer.next c2PendingMidFrame).1 = none ∧
      c2PendingMidFrame.pending_sources ≠ [] ∧
      (Mixer.next c2PendingMidFrame).2.pending_sources ≠ [] := by
  decide

/-- All sources empty means the summation pass keeps nothing. -/
theorem sumCurrentSources_all_nil (sources : List (List ℚ))
    (h : ∀ s ∈ sources, s = []) : Mixer.sumCurrentSources sources = (0, []) := by
  induction sources with
  | nil => rfl
  | cons s rest ih =>
    have hs : s = [] := h s (by simp)
    subst hs
    simpa [Mixer.sumCurrentSources] using ih (fun t ht => h t (by simp [ht]))

/-- C2 amended: `Mixer::next_sample` returns none iff the active set is empty
after admitting due pending sources and dropping sources that just reported
end-of-stream; otherwise it returns the sum produced by the surviving active
sources.  Once every active source is exhausted it returns none — but, as
`mixer_none_while_pending_cex` shows, it can return none while sources are
still *pending* (added mid-frame, awaiting the next frame boundary), so the
original "never none while pending" clause had to be dropped. -/
theorem mixer_next_none_iff_inactive (m : Mixer) :
    (let m1 := if m.has_pending then m.startPendingSources else m
     ((Mixer.next m).1 = none ↔ (Mixer.sumCurrentSources m1.current_sources).2 = []) ∧
       ((Mixer.sumCurrentSources m1.current_sources).2 ≠ [] →
         (Mixer.next m).1 = some (Mixer.sumCurrentSources m1.current_sources).1) ∧
       ((∀ s ∈ m1.current_sources, s = []) → (Mixer.next m).1 = none) ∧
       (Mixer.next m).2.current_sources = (Mixer.sumCurrentSources m1.current_sources).2) := by
  refine ⟨?_, ?_, ?_, ?_⟩
  · simp [Mixer.next, List.isEmpty_iff]
  · intro hne
    simp [Mixer.next, List.isEmpty_iff, hne]
  · intro hall
    have := sumCurrentSources_all_nil _ hall
    simp [Mixer.next, this]
  · simp [Mixer.next]

/-- Witness for C2's amended theorem at a concrete state: one active source
producing 3 and one exhausted source; the call returns 3 and drops the
exhausted source. -/
theorem mixer_next_none_iff_inactive_witness :
    (let m : Mixer :=
      { channel_count := 2, sample_rate := 48000, has_pending := false
        pending_sources := [], sample_count := 7, current_sources := [[3, 4], []] }
     (Mixer.next m).1 = some 3 ∧ (Mixer.next m).2.current_sources = [[4]]) := by
  have h := mixer_next_none_iff_inactive
    { channel_count := 2, sample_rate := 48000, has_pending := false
      pending_sources := [], sample_count := 7, current_sources := [[3, 4], []] }
  refine ⟨?_, ?_⟩
  · have h2 := h.2.1 (by decide)
    simpa [Mixer.sumCurrentSources] using h2
  · have h4 := h.2.2.2
    simpa [Mixer.sumCurrentSources] using h4

/-! ## ChannelConverter (conversions header)

State of `ChannelConverter`; `_from` is the input's channel count captured at
construction, `_to` the target.  The comparison `_next_output_sample_pos ==
_from - 1` is on C++ `int`s, so it is modelled over `ℤ` (for `_from = 0` the
C++ comparison is against `-1`, not against `0 - 1` truncated). -/

structure ChannelConverter where
  input : List ℚ
  fromC : ℕ
  toC : ℕ
  repeat_sample : Option ℚ
  next_output_sample_pos : ℕ

/-- Tail of `ChannelConverter::next_sample`: advance the cursor, wrap it at
`_to`, and on a wrap with `_from > _to` pull and discard the rest of the
input frame. -/
def ChannelConverter.wrapStep (s : ChannelConverter) (result rep' : Option ℚ)
    (input' : List ℚ) : Option ℚ × ChannelConverter :=
  if s.next_output_sample_pos + 1 = s.toC then
    (result,
      { s with
          input := if s.toC < s.fromC then input'.drop (s.fromC - s.toC) else input'
          repeat_sample := rep'
          next_output_sample_pos := 0 })
  else
    (result,
      { s with
          input := input'
          repeat_sample := rep'
          next_output_sample_pos := s.next_output_sample_pos + 1 })

/-- `ChannelConverter::next_sample`. -/
def ChannelConverter.next (s : ChannelConverter) : Option ℚ × ChannelConverter :=
  if s.fromC = s.toC then
    (s.input.head?, { s with input := s.input.tail })
  else if (s.next_output_sample_pos : ℤ) = (s.fromC : ℤ) - 1 then
    s.wrapStep s.input.head? s.input.head? s.input.tail
  else if s.next_output_sample_pos < s.fromC then
    s.wrapStep s.input.head? s.repeat_sample s.input.tail
  else
    s.wrapStep s.repeat_sample s.repeat_sample s.input

/-- Pull `n` consecutive samples, collecting the outputs. -/
def ChannelConverter.run : ChannelConverter → ℕ → List (Option ℚ) × ChannelConverter
  | s, 0 => ([], s)
  | s, n + 1 =>
    let r := s.next
    let rr := r.2.run n
    (r.1 :: rr.1, rr.2)

theorem ChannelConverter.run_add (m n : ℕ) (s : ChannelConverter) :
    s.run (m + n) =
      ((s.run m).1 ++ ((s.run m).2.run n).1, ((s.run m).2.run n).2) := by
  induction m generalizing s with
  | zero => simp [ChannelConverter.run]
  | succ m ih =>
    have : m + 1 + n = (m + n) + 1 := by omega
    simp only [this, ChannelConverter.run, ih]
    simp


theorem ChannelConverter.run_succ (s : ChannelConverter) (n : ℕ) :
    s.run (n + 1) = ((s.next).1 :: ((s.next).2.run n).1, ((s.next).2.run n).2) := rfl

/-- Copy phase of an expanding (or any) frame: with `pos` such that the
remaining `xs ++ [a]` fill input-channel positions up to `_from`, every call
pulls the input, and the last copied channel value `a` is captured as the
repeat sample. -/
theorem ChannelConverter.run_copy (xs : List ℚ) (a : ℚ) (rest : List ℚ)
    (fromC toC : ℕ) (rep : Option ℚ) (pos : ℕ)
    (hpos : pos + (xs.length + 1) = fromC) (hlt : fromC < toC) :
    ChannelConverter.run ⟨(xs ++ [a]) ++ rest, fromC, toC, rep, pos⟩ (xs.length + 1) =
      ((xs ++ [a]).map some, ⟨rest, fromC, toC, some a, fromC⟩) := by
  induction xs generalizing pos rep with
  | nil =>
    have hp : pos + 1 = fromC := by simpa using hpos
    have h1 : ¬ (fromC = toC) := by omega
    have h2 : ((pos : ℤ) = (fromC : ℤ) - 1) := by omega
    have h4 : ¬ (pos + 1 = toC) := by omega
    simp [ChannelConverter.run, ChannelConverter.next, ChannelConverter.wrapStep,
      h1, h2, h4, hp]
  | cons b xs ih =>
    have hpos' : pos + (xs.length + 1 + 1) = fromC := by simpa using hpos
    have h1 : ¬ (fromC = toC) := by omega
    have h2 : ¬ ((pos : ℤ) = (fromC : ℤ) - 1) := by omega
    have h3 : pos < fromC := by omega
    have h4 : ¬ (pos + 1 = toC) := by omega
    have hlen : (b :: xs).length + 1 = (xs.length + 1) + 1 := by simp
    rw [hlen, ChannelConverter.run_succ]
    have hstep :
        (ChannelConverter.next ⟨((b :: xs) ++ [a]) ++ rest, fromC, toC, rep, pos⟩)
          = (some b, ⟨(xs ++ [a]) ++ rest, fromC, toC, rep, pos + 1⟩) := by
      simp [ChannelConverter.next, ChannelConverter.wrapStep, h1, h2, h3, h4]
    rw [hstep, ih rep (pos + 1) (by omega)]
    simp

/-- Replay phase of an expanding frame: for output positions `≥ _from` the
converter emits the captured repeat sample without touching the input, and
on position `_to - 1` the cursor wraps to 0 (no discard since `_from <
_to`). -/
theorem ChannelConverter.run_replay (k : ℕ) (inp : List ℚ) (fromC toC : ℕ)
    (rep : Option ℚ) (pos : ℕ)
    (hpos : pos + (k + 1) = toC) (hge : fromC ≤ pos) (hlt : fromC < toC) :
    ChannelConverter.run ⟨inp, fromC, toC, rep, pos⟩ (k + 1) =
      (List.replicate (k + 1) rep, ⟨inp, fromC, toC, rep, 0⟩) := by
  induction k generalizing pos with
  | zero =>
    have hp : pos + 1 = toC := by simpa using hpos
    have h1 : ¬ (fromC = toC) := by omega
    have h2 : ¬ ((pos : ℤ) = (fromC : ℤ) - 1) := by omega
    have h3 : ¬ (pos < fromC) := by omega
    have h5 : ¬ (toC < fromC) := by omega
    simp [ChannelConverter.run, ChannelConverter.next, ChannelConverter.wrapStep,
      h1, h2, h3, h5, hp]
  | succ k ih =>
    have h1 : ¬ (fromC = toC) := by omega
    have h2 : ¬ ((pos : ℤ) = (fromC : ℤ) - 1) := by omega
    have h3 : ¬ (pos < fromC) := by omega
    have h4 : ¬ (pos + 1 = toC) := by omega
    rw [ChannelConverter.run_succ]
    have hstep :
        (ChannelConverter.next ⟨inp, fromC, toC, rep, pos⟩)
          = (rep, ⟨inp, fromC, toC, rep, pos + 1⟩) := by
      simp [ChannelConverter.next, ChannelConverter.wrapStep, h1, h2, h3, h4]
    rw [hstep, ih (pos + 1) (by omega) (by omega)]
    simp [List.replicate_succ]

/-- Reducing phase: the first `_to` positions of a frame pull the input, and
the wrap discards the rest of the input frame (`_from - _to` samples). -/
theorem ChannelConverter.run_reduce (xs : List ℚ) (a : ℚ) (rest : List ℚ)
    (fromC toC : ℕ) (rep : Option ℚ) (pos : ℕ)
    (hpos : pos + (xs.length + 1) = toC) (hlt : toC < fromC) :
    ChannelConverter.run ⟨(xs ++ [a]) ++ rest, fromC, toC, rep, pos⟩ (xs.length + 1) =
      ((xs ++ [a]).map some, ⟨rest.drop (fromC - toC), fromC, toC, rep, 0⟩) := by
  induction xs generalizing pos rest with
  | nil =>
    have hp : pos + 1 = toC := by simpa using hpos
    have h1 : ¬ (fromC = toC) := by omega
    have h2 : ¬ ((pos : ℤ) = (fromC : ℤ) - 1) := by omega
    have h3 : pos < fromC := by omega
    simp [ChannelConverter.run, ChannelConverter.next, ChannelConverter.wrapStep,
      h1, h2, h3, hp, hlt]
  | cons b xs ih =>
    have hpos' : pos + (xs.length + 1 + 1) = toC := by simpa using hpos
    have h1 : ¬ (fromC = toC) := by omega
    have h2 : ¬ ((pos : ℤ) = (fromC : ℤ) - 1) := by omega
    have h3 : pos < fromC := by omega
    have h4 : ¬ (pos + 1 = toC) := by omega
    have hlen : (b :: xs).length + 1 = (xs.length + 1) + 1 := by simp
    rw [hlen, ChannelConverter.run_succ]
    have hstep :
        (ChannelConverter.next ⟨((b :: xs) ++ [a]) ++ rest, fromC, toC, rep, pos⟩)
          = (some b, ⟨(xs ++ [a]) ++ rest, fromC, toC, rep, pos + 1⟩) := by
      simp [ChannelConverter.next, ChannelConverter.wrapStep, h1, h2, h3, h4]
    rw [hstep, ih rest (pos + 1) (by omega)]
    simp

/-! ### Claim C4 -/

/-- C4: `ChannelConverter` with target `to` over an input of `from` channels:
(a) `to = from` forwards every call unchanged; (b) expanding (`to > from`,
input frame `xs ++ [a]` of length `from`): one cycle of `to` calls copies
input channels `[0, from)` and then replays the frame's last input channel
value `a` for every position in `[from, to)`, ending with the cursor wrapped
to 0 and exactly one input frame consumed; (c) reducing (`to < from`, input
frame `(ys ++ [a]) ++ (c :: zs)` of length `from` with `to = (ys ++ [a])
.length`): one cycle of `to` calls emits the frame's first `to` samples and
discards the remaining `from - to`, again ending with the cursor at 0 and
one input frame consumed. -/
theorem channel_converter_conversion :
    (∀ s : ChannelConverter, s.fromC = s.toC →
        s.next = (s.input.head?, { s with input := s.input.tail })) ∧
    (∀ (xs : List ℚ) (a : ℚ) (rest : List ℚ) (toC : ℕ) (rep : Option ℚ),
        (xs ++ [a]).length < toC →
        ChannelConverter.run ⟨(xs ++ [a]) ++ rest, (xs ++ [a]).length, toC, rep, 0⟩ toC =
          ((xs ++ [a]).map some ++ List.replicate (toC - (xs ++ [a]).length) (some a),
            ⟨rest, (xs ++ [a]).length, toC, some a, 0⟩)) ∧
    (∀ (ys : List ℚ) (a c : ℚ) (zs rest : List ℚ) (rep : Option ℚ),
        ChannelConverter.run
            ⟨(ys ++ [a]) ++ ((c :: zs) ++ rest), (ys ++ [a]).length + (zs.length + 1),
              (ys ++ [a]).length, rep, 0⟩ ((ys ++ [a]).length) =
          ((ys ++ [a]).map some,
            ⟨rest, (ys ++ [a]).length + (zs.length + 1), (ys ++ [a]).length, rep, 0⟩)) := by
  refine ⟨?_, ?_, ?_⟩
  · intro s h
    simp [ChannelConverter.next, h]
  · intro xs a rest toC rep h
    have hlen : (xs ++ [a]).length = xs.length + 1 := by simp
    have hlt : xs.length + 1 < toC := by omega
    obtain ⟨k, hk⟩ : ∃ k, toC - (xs.length + 1) = k + 1 := ⟨toC - (xs.length + 1) - 1, by omega⟩
    have hsplit : toC = (xs.length + 1) + (k + 1) := by omega
    rw [hlen]
    rw [hsplit, ChannelConverter.run_add,
      ChannelConverter.run_copy xs a rest (xs.length + 1) ((xs.length + 1) + (k + 1)) rep 0
        (by omega) (by omega),
      ChannelConverter.run_replay k rest (xs.length + 1) ((xs.length + 1) + (k + 1))
        (some a) (xs.length + 1) (by omega) (by omega) (by omega)]
    simp
  · intro ys a c zs rest rep
    have hlen : (ys ++ [a]).length = ys.length + 1 := by simp
    rw [hlen]
    rw [ChannelConverter.run_reduce ys a ((c :: zs) ++ rest)
      (ys.length + 1 + (zs.length + 1)) (ys.length + 1) rep 0 (by omega) (by omega)]
    have hd : ys.length + 1 + (zs.length + 1) - (ys.length + 1) = zs.length + 1 := by omega
    simp [hd, List.drop_left]

/-- Witness for C4 at concrete converters: a 2→2 pass-through call, one
2→3 expanding cycle, and one 3→2 reducing cycle. -/
theorem channel_converter_conversion_witness :
    (ChannelConverter.next ⟨[5, 6], 2, 2, none, 0⟩ = (some 5, ⟨[6], 2, 2, none, 0⟩)) ∧
    (ChannelConverter.run ⟨[1, 2, 9], 2, 3, none, 0⟩ 3 =
      ([some 1, some 2, some 2], ⟨[9], 2, 3, some 2, 0⟩)) ∧
    (ChannelConverter.run ⟨[1, 2, 3, 7, 8], 3, 2, none, 0⟩ 2 =
      ([some 1, some 2], ⟨[7, 8], 3, 2, none, 0⟩)) := by
  refine ⟨?_, ?_, ?_⟩
  · have h := channel_converter_conversion.1 ⟨[5, 6], 2, 2, none, 0⟩ rfl
    simpa using h
  · have h := channel_converter_conversion.2.1 [1] 2 [9] 3 none (by decide)
    simpa using h
  · have h := channel_converter_conversion.2.2 [1] 2 3 [] [7, 8] none
    simpa using h

/-! ## SampleRateConverter (conversions header)

The template `gcd(a, b) = b == 0 ? a : gcd(b, a % b)` of the source, written
with explicit fuel (`b + 1` recursive calls always suffice, since the second
argument strictly decreases) so that it stays kernel-reducible. -/

def gcdCAux : ℕ → ℕ → ℕ → ℕ
  | 0, a, _ => a
  | fuel + 1, a, b => if b = 0 then a else gcdCAux fuel b (a % b)

def gcdC (a b : ℕ) : ℕ := gcdCAux (b + 1) a b

theorem gcdCAux_eq_gcd (fuel a b : ℕ) (h : b < fuel) : gcdCAux fuel a b = Nat.gcd b a := by
  induction fuel generalizing a b with
  | zero => omega
  | succ fuel ih =>
    by_cases hb : b = 0
    · simp [gcdCAux, hb]
    · rw [gcdCAux, if_neg hb, ih b (a % b) (by have := Nat.mod_lt a (by omega : 0 < b); omega),
        Nat.gcd_rec b a]

/-- The source's `gcd` template computes the mathematical gcd. -/
theorem gcdC_eq_gcd (a b : ℕ) : gcdC a b = Nat.gcd a b := by
  rw [gcdC, gcdCAux_eq_gcd (b + 1) a b (by omega), Nat.gcd_comm]

/-- State of `SampleRateConverter`: `fromR`/`toR` are `_from`/`_to`, already
reduced by the gcd in the constructor; the two buffered input frames, the
output queue of extra interpolated channel samples, and the two frame
cursors. -/
structure SampleRateConverter where
  input : List ℚ
  fromR : ℕ
  toR : ℕ
  channels : ℕ
  current_frame : List ℚ
  next_frame : List ℚ
  output_buffer : List ℚ
  current_frame_idx : ℕ
  next_frame_idx : ℕ

/-- The `SampleRateConverter` constructor: reduce `(from, to)` by their gcd
and, unless the rates are equal, pre-pull two full input frames (a loop of
`_channels` pulls keeps only the produced samples, which on a stream is
`take`/`drop`). -/
def SampleRateConverter.create (input : List ℚ) (channels fromRate toRate : ℕ) :
    SampleRateConverter :=
  if fromRate ≠ toRate then
    { input := input.drop (2 * channels)
      fromR := fromRate / gcdC fromRate toRate
      toR := toRate / gcdC fromRate toRate
      channels := channels
      current_frame := input.take channels
      next_frame := (input.drop channels).take channels
      output_buffer := []
      current_frame_idx := 0
      next_frame_idx := 0 }
  else
    { input := input
      fromR := fromRate / gcdC fromRate toRate
      toR := toRate / gcdC fromRate toRate
      channels := channels
      current_frame := []
      next_frame := []
      output_buffer := []
      current_frame_idx := 0
      next_frame_idx := 0 }

/-- `SampleRateConverter::sample_rate`: the source returns `_to`, i.e. the
reduced part of the ratio, not the requested target rate. -/
def SampleRateConverter.sampleRateR (s : SampleRateConverter) : ℕ := s.toR

/-- `SampleRateConverter::channel_count`: forwards the input's channel
count. -/
def SampleRateConverter.channelCountR (s : SampleRateConverter) : ℕ := s.channels

/-- `SampleRateConverter::_next_input_frame`. -/
def SampleRateConverter.nextInputFrame (s : SampleRateConverter) : SampleRateConverter :=
  { s with
      current_frame_idx := s.current_frame_idx + 1
      current_frame := s.next_frame
      next_frame := s.input.take s.channels
      input := s.input.drop s.channels }

/-- The two frame-advancement loops at the head of
`SampleRateConverter::next_sample`.  Each C++ loop iteration increments
`_current_frame_idx` by one, so a loop "advance until the cursor equals
`t`" runs exactly `t - _current_frame_idx` times in every reachable state
(the cursor never starts above its target; for the do-while branch the
target is `_from` and the cursor is at most `_from - 1` after a full
cycle). -/
def SampleRateConverter.advanceFrames (s : SampleRateConverter) : SampleRateConverter :=
  if s.next_frame_idx = s.toR then
    let s1 := SampleRateConverter.nextInputFrame^[s.fromR - s.current_frame_idx] s
    { s1 with current_frame_idx := 0, next_frame_idx := 0 }
  else
    let left := (s.fromR * s.next_frame_idx / s.toR) % s.fromR
    SampleRateConverter.nextInputFrame^[left - s.current_frame_idx] s

/-- `lerp_factor = (double)((_from * _next_frame_idx) % _to) / _to`. -/
def SampleRateConverter.lerpWeight (s : SampleRateConverter) : ℚ :=
  (((s.fromR * s.next_frame_idx) % s.toR : ℕ) : ℚ) / (s.toR : ℚ)

/-- The interpolation loop body: over `min` of the two buffered frame sizes
(`zip`), each channel is combined as `cur * (1 - w) + next * w`. -/
def SampleRateConverter.interpolated (s : SampleRateConverter) : List ℚ :=
  (s.current_frame.zip s.next_frame).map
    (fun p => p.1 * (1 - s.lerpWeight) + p.2 * s.lerpWeight)

/-- `SampleRateConverter::next_sample`. -/
def SampleRateConverter.next_sample (s : SampleRateConverter) :
    Option ℚ × SampleRateConverter :=
  if s.fromR = s.toR then
    (s.input.head?, { s with input := s.input.tail })
  else
    match s.output_buffer with
    | b :: rest => (some b, { s with output_buffer := rest })
    | [] =>
      let s1 := s.advanceFrames
      let s2 := { s1 with next_frame_idx := s1.next_frame_idx + 1 }
      match s1.interpolated with
      | r :: qs => (some r, { s2 with output_buffer := qs })
      | [] =>
        match s2.current_frame with
        | cHead :: cTail => (some cHead, { s2 with current_frame := [], output_buffer := cTail })
        | [] => (none, s2)

theorem SampleRateConverter.interpolated_getElem (s : SampleRateConverter)
    (i : ℕ) (c n : ℚ) (hz : (s.current_frame.zip s.next_frame)[i]? = some (c, n)) :
    s.interpolated[i]? = some (c * (1 - s.lerpWeight) + n * s.lerpWeight) := by
  simp [SampleRateConverter.interpolated, hz]

/-! ### Claim C3 -/

/-- C3: the constructor reduces `(from, to)` by their greatest common
divisor; when the reduced ratio is 1:1 (`_from = _to`) every `next_sample`
call is forwarded unchanged to the input — and with equal rates the
constructor pre-pulls nothing, so the pass-through is bit-identical;
otherwise the output queue is drained (head first, input untouched) before
any new interpolation work, and an interpolation step combines each buffered
channel pair `(c, n)` independently into `c * (1 - w) + n * w` with the
single scalar weight `w = ((from * j) mod to) / to` for the current output
frame index `j` — channel 0 is returned and channels `1, …` are queued in
order. -/
theorem sample_rate_converter_interpolation :
    (∀ input channels fromRate toRate,
        (SampleRateConverter.create input channels fromRate toRate).fromR =
            fromRate / Nat.gcd fromRate toRate ∧
          (SampleRateConverter.create input channels fromRate toRate).toR =
            toRate / Nat.gcd fromRate toRate) ∧
    (∀ input channels r, (SampleRateConverter.create input channels r r).input = input) ∧
    (∀ s : SampleRateConverter, s.fromR = s.toR →
        s.next_sample = (s.input.head?, { s with input := s.input.tail })) ∧
    (∀ (s : SampleRateConverter) (b : ℚ) (rest : List ℚ), s.fromR ≠ s.toR →
        s.output_buffer = b :: rest →
        s.next_sample = (some b, { s with output_buffer := rest })) ∧
    (∀ s : SampleRateConverter, s.fromR ≠ s.toR → s.output_buffer = [] →
        ∀ (i : ℕ) (c n : ℚ),
          (s.advanceFrames.current_frame.zip s.advanceFrames.next_frame)[i]? = some (c, n) →
          (if i = 0 then s.next_sample.1 else s.next_sample.2.output_buffer[i - 1]?) =
            some (c * (1 - s.advanceFrames.lerpWeight) + n * s.advanceFrames.lerpWeight)) := by
  refine ⟨?_, ?_, ?_, ?_, ?_⟩
  · intro input channels fromRate toRate
    constructor <;>
      · simp only [SampleRateConverter.create]
        split <;> simp [gcdC_eq_gcd]
  · intro input channels r
    simp [SampleRateConverter.create]
  · intro s h
    simp [SampleRateConverter.next_sample, h]
  · intro s b rest h hob
    simp [SampleRateConverter.next_sample, h, hob]
  · intro s h hob i c n hz
    have hval := s.advanceFrames.interpolated_getElem i c n hz
    obtain ⟨r, qs, hv⟩ : ∃ r qs, s.advanceFrames.interpolated = r :: qs := by
      cases hvv : s.advanceFrames.interpolated with
      | nil => rw [hvv] at hval; simp at hval
      | cons r qs => exact ⟨r, qs, rfl⟩
    have hns : s.next_sample =
        (some r,
          { s.advanceFrames with
              next_frame_idx := s.advanceFrames.next_frame_idx + 1
              output_buffer := qs }) := by
      simp [SampleRateConverter.next_sample, h, hob, hv]
    rcases i with _ | k
    · rw [hv] at hval
      simp only [List.getElem?_cons_zero] at hval
      simp [hns, hval]
    · rw [hv] at hval
      simp only [List.getElem?_cons_succ] at hval
      simp [hns, hval]

/-- Witness for C3: a 48000→48000 converter forwards the stream untouched; a
drain step returns the queued sample without touching the input; a concrete
interpolation (reduced ratio 1:2, output frame index 1) yields weight 1/2
and sample (4 + 6) / 2 = 5. -/
theorem sample_rate_converter_interpolation_witness :
    ((SampleRateConverter.create [7, 8] 1 48000 48000).next_sample).1 = some 7 ∧
    (⟨[], 1, 2, 1, [], [], [9, 10], 0, 0⟩ : SampleRateConverter).next_sample =
      (some 9, ⟨[], 1, 2, 1, [], [], [10], 0, 0⟩) ∧
    (⟨[], 1, 2, 1, [4], [6], [], 0, 1⟩ : SampleRateConverter).next_sample.1 = some 5 := by
  refine ⟨?_, ?_, ?_⟩
  · have h := sample_rate_converter_interpolation.2.2.1
      (SampleRateConverter.create [7, 8] 1 48000 48000) (by decide)
    rw [h]
    have h2 := sample_rate_converter_interpolation.2.1 [7, 8] 1 48000
    rw [h2]
    rfl
  · have h := sample_rate_converter_interpolation.2.2.2.1
      (⟨[], 1, 2, 1, [], [], [9, 10], 0, 0⟩ : SampleRateConverter) 9 [10] (by decide) rfl
    simpa using h
  · have h := sample_rate_converter_interpolation.2.2.2.2
      (⟨[], 1, 2, 1, [4], [6], [], 0, 1⟩ : SampleRateConverter) (by decide) rfl 0 4 6
      (by decide)
    rw [if_pos rfl] at h
    rw [h]
    norm_num [SampleRateConverter.advanceFrames, SampleRateConverter.lerpWeight,
      Function.iterate_zero_apply]

/-! ### Claim C10 -/

/-- C10 evaluated on the code: `SampleRateConverter::sample_rate` returns the
gcd-reduced `_to`, not the requested target rate — already for a 48000→48000
converter it reports 1 — while `channel_count` does forward the input's
channel count as the claim states. -/
theorem sample_rate_converter_rate_bug :
    (∀ input channels fromRate toRate,
        (SampleRateConverter.create input channels fromRate toRate).sampleRateR =
            toRate / Nat.gcd fromRate toRate ∧
          (SampleRateConverter.create input channels fromRate toRate).channelCountR =
            channels) ∧
    (SampleRateConverter.create [0, 0, 0, 0] 2 48000 48000).sampleRateR = 1 ∧
    (1 : ℕ) ≠ 48000 := by
  refine ⟨?_, ?_, by decide⟩
  · intro input channels fromRate toRate
    constructor <;>
      · simp only [SampleRateConverter.create, SampleRateConverter.sampleRateR,
          SampleRateConverter.channelCountR]
        split <;> simp [gcdC_eq_gcd]
  · decide

/-! ## Decorator sources (source.h, Buffered header)

A decorator chain is split into its static shape `Sh` (the constructor
arguments that never change after construction: gains, requested durations,
per-sample periods, the filter callback, the buffer size, and the shape of
the inner source) and its mutable state `St sh` (the base stream, remaining
budgets, the filter's sample counter, the buffer contents).  The split lets
the `Buffered` refill loop — which repeatedly pulls the *inner* source —
recurse structurally on the shape.  A base source is an arbitrary sample
stream with the permanent end-of-stream behaviour required by the `Source`
contract. -/

def NANO_PER_SEC : ℕ := 1000000000

/-- The `FilterInfo` struct handed to a `Filter` callback. -/
structure FilterInfo where
  current_sample : ℕ
  sample_rate : ℕ
  total_duration : Option ℕ

inductive Sh where
  | base (rate channels : ℕ)
  | amplify (amp : ℚ) (inner : Sh)
  | duration (requested period : ℕ) (inner : Sh)
  | delay (requested period : ℕ) (inner : Sh)
  | filter (f : ℚ → FilterInfo → ℚ) (inner : Sh)
  | buffered (size : ℕ) (inner : Sh)

/-- `sample_rate()`: every decorator forwards the inner source's rate. -/
def Sh.sample_rate : Sh → ℕ
  | .base rate _ => rate
  | .amplify _ i => i.sample_rate
  | .duration _ _ i => i.sample_rate
  | .delay _ _ i => i.sample_rate
  | .filter _ i => i.sample_rate
  | .buffered _ i => i.sample_rate

/-- `channel_count()`: every decorator forwards the inner source's count. -/
def Sh.channel_count : Sh → ℕ
  | .base _ channels => channels
  | .amplify _ i => i.channel_count
  | .duration _ _ i => i.channel_count
  | .delay _ _ i => i.channel_count
  | .filter _ i => i.channel_count
  | .buffered _ i => i.channel_count

/-- `total_duration()` (in nanoseconds): `Duration` reports its requested
limit, `Delay` adds its delay to the inner duration when known, `Amplify`
and `Buffered` forward, and `Filter` — which does not override the virtual —
falls back to the base-class "unknown". -/
def Sh.total_duration : Sh → Option ℕ
  | .base _ _ => none
  | .amplify _ i => i.total_duration
  | .duration requested _ _ => some requested
  | .delay requested _ i => i.total_duration.map (fun t => requested + t)
  | .filter _ _ => none
  | .buffered _ i => i.total_duration

/-- Mutable state of a chain of shape `sh`. -/
def St : Sh → Type
  | .base _ _ => List ℚ
  | .amplify _ i => St i
  | .duration _ _ i => ℕ × St i
  | .delay _ _ i => ℕ × St i
  | .filter _ i => ℕ × St i
  | .buffered _ i => List ℚ × St i

/-- `Buffered::_advance_buffer`'s pull loop: call `f` up to `n` times,
collecting samples, stopping at the first end-of-stream. -/
def pullWith {σ : Type} (f : σ → Option ℚ × σ) : ℕ → σ → List ℚ × σ
  | 0, st => ([], st)
  | n + 1, st =>
    match f st with
    | (some x, st') =>
      let r := pullWith f n st'
      (x :: r.1, r.2)
    | (none, st') => ([], st')

/-- `next_sample()` of a decorator chain, one case per class. -/
def Sh.next : (sh : Sh) → St sh → Option ℚ × St sh
  | .base _ _, xs => (xs.head?, xs.tail)
  | .amplify a i, st =>
    let r := Sh.next i st
    (r.1.map (fun x => x * a), r.2)
  | .duration _ per i, (rem, st) =>
    if rem ≤ per then (none, (rem, st))
    else
      let r := Sh.next i st
      (r.1, (rem - per, r.2))
  | .delay _ per i, (rem, st) =>
    if rem ≤ per then
      let r := Sh.next i st
      (r.1, (rem, r.2))
    else (some 0, (rem - per, st))
  | .filter f i, (cur, st) =>
    let info : FilterInfo := ⟨cur, i.sample_rate, i.total_duration⟩
    let r := Sh.next i st
    (r.1.map (fun x => f x info), (cur + 1, r.2))
  | .buffered size i, (buf, st) =>
    match buf with
    | [] => (none, ([], st))
    | x :: rest =>
      if rest.isEmpty then
        let r := pullWith (Sh.next i) size st
        (some x, (r.1, r.2))
      else (some x, (rest, st))

/-- A chain bundled with its current state. -/
structure SrcP where
  sh : Sh
  st : St sh

def SrcP.next (p : SrcP) : Option ℚ × SrcP :=
  let r := Sh.next p.sh p.st
  (r.1, ⟨p.sh, r.2⟩)

def SrcP.run : SrcP → ℕ → List (Option ℚ) × SrcP
  | p, 0 => ([], p)
  | p, n + 1 =>
    let r := p.next
    let rr := r.2.run n
    (r.1 :: rr.1, rr.2)

/-- A base source: a stream of samples with the given rate and channels. -/
def SourceBase (xs : List ℚ) (rate channels : ℕ) : SrcP := ⟨.base rate channels, xs⟩

/-- The `Amplify` constructor. -/
def Amplify.create (inner : SrcP) (amp : ℚ) : SrcP := ⟨.amplify amp inner.sh, inner.st⟩

/-- The `Duration` constructor: both budgets start at `duration_ns` and the
per-sample period is `NANO_PER_SEC / (sample_rate() * channel_count())`. -/
def Duration.create (inner : SrcP) (duration_ns : ℕ) : SrcP :=
  ⟨.duration duration_ns (NANO_PER_SEC / (inner.sh.sample_rate * inner.sh.channel_count))
      inner.sh,
    (duration_ns, inner.st)⟩

/-- The `Delay` constructor. -/
def Delay.create (inner : SrcP) (delay_ns : ℕ) : SrcP :=
  ⟨.delay delay_ns (NANO_PER_SEC / (inner.sh.sample_rate * inner.sh.channel_count)) inner.sh,
    (delay_ns, inner.st)⟩

/-- The `Filter` constructor. -/
def Filter.create (inner : SrcP) (f : ℚ → FilterInfo → ℚ) : SrcP :=
  ⟨.filter f inner.sh, (0, inner.st)⟩

/-- The `Buffered` constructor: `_buffer_size = buffer_size *
channel_count()`, and the buffer is filled eagerly before the first pull. -/
def Buffered.create (inner : SrcP) (buffer_size : ℕ) : SrcP :=
  let size := buffer_size * inner.sh.channel_count
  let r := pullWith (Sh.next inner.sh) size inner.st
  ⟨.buffered size inner.sh, (r.1, r.2)⟩

/-- The period stored in the outermost `Duration` node (0 elsewhere). -/
def Sh.durPeriod : Sh → ℕ
  | .duration _ per _ => per
  | _ => 0

/-- The buffer contents of the outermost `Buffered` node. -/
def Sh.bufOf : (sh : Sh) → St sh → List ℚ
  | .base _ _, _ => []
  | .amplify _ _, _ => []
  | .duration _ _ _, _ => []
  | .delay _ _ _, _ => []
  | .filter _ _, _ => []
  | .buffered _ _, (buf, _) => buf

def SrcP.bufferContents (p : SrcP) : List ℚ := Sh.bufOf p.sh p.st

theorem SrcP.run_unfold (p : SrcP) (n : ℕ) :
    p.run (n + 1) = (p.next.1 :: (p.next.2.run n).1, (p.next.2.run n).2) := rfl

/-- One step of pulling: the state after a `next_sample` call. -/
def SrcP.step (p : SrcP) : SrcP := (SrcP.next p).2

/-- The output of the `n`-th `next_sample` call (0-based). -/
def SrcP.nthOut (p : SrcP) (n : ℕ) : Option ℚ := (SrcP.next (SrcP.step^[n] p)).1

theorem SrcP.nthOut_succ (p : SrcP) (n : ℕ) : p.nthOut (n + 1) = p.step.nthOut n := by
  simp [SrcP.nthOut, Function.iterate_succ_apply]

/-! ### Claim C8 -/

/-- One-step preservation of exhaustion: if a chain's `next_sample` just
returned none, the call left it in a state whose next call returns none
again (and, the functions being total, no case aborts). -/
theorem Sh.next_none_step (sh : Sh) :
    ∀ st : St sh, (Sh.next sh st).1 = none → (Sh.next sh (Sh.next sh st).2).1 = none := by
  induction sh with
  | base rate channels =>
    intro st h
    cases st with
    | nil => simp [Sh.next]
    | cons x xs => simp [Sh.next] at h
  | amplify a i ih =>
    intro st h
    simp only [Sh.next, Option.map_eq_none'] at h ⊢
    exact ih st h
  | duration req per i ih =>
    intro st h
    obtain ⟨rem, sti⟩ := st
    by_cases hle : rem ≤ per
    · simp [Sh.next, hle]
    · simp only [Sh.next, if_neg hle] at h ⊢
      by_cases h2 : rem - per ≤ per
      · simp [h2]
      · simpa [h2] using ih sti h
  | delay req per i ih =>
    intro st h
    obtain ⟨rem, sti⟩ := st
    by_cases hle : rem ≤ per
    · simp only [Sh.next, if_pos hle] at h ⊢
      exact ih sti h
    · simp [Sh.next, if_neg hle] at h
  | filter f i ih =>
    intro st h
    obtain ⟨cur, sti⟩ := st
    simp only [Sh.next, Option.map_eq_none'] at h ⊢
    exact ih sti h
  | buffered size i ih =>
    intro st h
    obtain ⟨buf, sti⟩ := st
    cases buf with
    | nil => simp [Sh.next]
    | cons x rest => simp [Sh.next] at h; split at h <;> simp_all

/-- C8: for every decorator chain built from `Amplify`, `Duration`, `Delay`,
`Filter` and `Buffered` (over a base sample stream), once `next_sample` has
returned none, every subsequent call returns none again; the step functions
are total, so no later call can fail. -/
theorem chain_idempotent_exhaustion (p : SrcP) (h : (SrcP.next p).1 = none) :
    ∀ n : ℕ, (SrcP.next (SrcP.step^[n] p)).1 = none := by
  intro n
  induction n with
  | zero => simpa using h
  | succ n ih =>
    rw [Function.iterate_succ_apply']
    have hstep : (SrcP.next (SrcP.step (SrcP.step^[n] p))).1 = none := by
      have := Sh.next_none_step (SrcP.step^[n] p).sh (SrcP.step^[n] p).st
        (by simpa [SrcP.next] using ih)
      simpa [SrcP.step, SrcP.next] using this
    exact hstep

/-- Witness for C8: a concrete chain `Amplify(Duration(base))` that is
exhausted at once (budget below one period) keeps answering none, here
checked at the fourth call after the first none. -/
theorem chain_idempotent_exhaustion_witness :
    (SrcP.next (Amplify.create (Duration.create (SourceBase [] 1 1) 5) 2)).1 = none ∧
      (SrcP.next
          (SrcP.step^[3] (Amplify.create (Duration.create (SourceBase [] 1 1) 5) 2))).1 =
        none := by
  exact ⟨by decide,
    chain_idempotent_exhaustion (Amplify.create (Duration.create (SourceBase [] 1 1) 5) 2)
      (by decide) 3⟩

/-! ### Claim C6 -/

/-- Number of produced (non-none) samples in a run's output. -/
def countSome (l : List (Option ℚ)) : ℕ := l.countP (fun o => o.isSome)

/-- Cap invariant of a `Duration` node: over any `n` calls, the wall time of
the produced samples (count × per-sample period) never exceeds the remaining
budget, whatever the inner source does. -/
theorem duration_run_cap (n : ℕ) :
    ∀ (sh : Sh) (st : St sh) (rem req per : ℕ),
      countSome ((⟨.duration req per sh, (rem, st)⟩ : SrcP).run n).1 * per ≤ rem := by
  induction n with
  | zero =>
    intro sh st rem req per
    simp [SrcP.run, countSome]
  | succ n ih =>
    intro sh st rem req per
    rw [SrcP.run_unfold]
    by_cases hle : rem ≤ per
    · have hnext : (⟨.duration req per sh, (rem, st)⟩ : SrcP).next =
          (none, ⟨.duration req per sh, (rem, st)⟩) := by
        simp [SrcP.next, Sh.next, hle]
      rw [hnext]
      simpa [countSome] using ih sh st rem req per
    · have hnext : (⟨.duration req per sh, (rem, st)⟩ : SrcP).next =
          ((Sh.next sh st).1,
            ⟨.duration req per sh, (rem - per, (Sh.next sh st).2)⟩) := by
        simp [SrcP.next, Sh.next, hle]
      rw [hnext]
      have hih := ih sh (Sh.next sh st).2 (rem - per) req per
      have hcount : countSome ((Sh.next sh st).1 ::
          ((⟨.duration req per sh, (rem - per, (Sh.next sh st).2)⟩ : SrcP).run n).1) ≤
          countSome ((⟨.duration req per sh, (rem - per, (Sh.next sh st).2)⟩ : SrcP).run n).1
            + 1 := by
        simp only [countSome, List.countP_cons]
        split <;> omega
      calc countSome ((Sh.next sh st).1 ::
            ((⟨.duration req per sh, (rem - per, (Sh.next sh st).2)⟩ : SrcP).run n).1) * per
          ≤ (countSome ((⟨.duration req per sh, (rem - per, (Sh.next sh st).2)⟩ : SrcP).run n).1
              + 1) * per := Nat.mul_le_mul_right per hcount
        _ ≤ (rem - per) + per := by
            rw [Nat.add_mul, Nat.one_mul]
            exact Nat.add_le_add_right hih per
        _ ≤ rem := by omega

/-- C6: a `Duration` node built by `Duration(inner, limit_ns)` uses the
per-sample period `NANO_PER_SEC / (inner.sample_rate() *
inner.channel_count())` (integer division); a pull returns none (leaving the
state untouched) exactly when the remaining budget is `≤` one period, and
otherwise forwards the inner pull while deducting one period; the produced
samples over any `n` pulls never amount to more than `limit_ns` of wall
time; and `total_duration()` reports the requested limit regardless of the
inner source. -/
theorem duration_caps_output :
    (∀ (inner : SrcP) (limit : ℕ),
        (Duration.create inner limit).sh.durPeriod =
          NANO_PER_SEC / (inner.sh.sample_rate * inner.sh.channel_count)) ∧
    (∀ (sh : Sh) (st : St sh) (rem req per : ℕ), rem ≤ per →
        Sh.next (.duration req per sh) (rem, st) = (none, (rem, st))) ∧
    (∀ (sh : Sh) (st : St sh) (rem req per : ℕ), per < rem →
        Sh.next (.duration req per sh) (rem, st) =
          ((Sh.next sh st).1, (rem - per, (Sh.next sh st).2))) ∧
    (∀ (inner : SrcP) (limit : ℕ),
        (Duration.create inner limit).sh.total_duration = some limit) ∧
    (∀ (inner : SrcP) (limit n : ℕ),
        countSome ((Duration.create inner limit).run n).1 *
            (Duration.create inner limit).sh.durPeriod ≤ limit) := by
  refine ⟨?_, ?_, ?_, ?_, ?_⟩
  · intro inner limit
    simp [Duration.create, Sh.durPeriod]
  · intro sh st rem req per h
    simp [Sh.next, h]
  · intro sh st rem req per h
    simp [Sh.next, Nat.not_le.mpr h]
  · intro inner limit
    simp [Duration.create, Sh.total_duration]
  · intro inner limit n
    exact duration_run_cap n inner.sh inner.st limit limit _

/-- Witness for C6 at a concrete source (rate 10^8, one channel, so the
period is 10 ns; budget 25 ns): the cut step, the forwarding step, and the
cap over five pulls. -/
theorem duration_caps_output_witness :
    (Sh.next (.duration 25 10 (.base 100000000 1)) ((5 : ℕ), ([1, 2, 3] : List ℚ)) =
        (none, (5, [1, 2, 3]))) ∧
    (Sh.next (.duration 25 10 (.base 100000000 1)) ((25 : ℕ), ([1, 2, 3] : List ℚ)) =
        (some 1, (15, [2, 3]))) ∧
    countSome ((Duration.create (SourceBase [1, 2, 3] 100000000 1) 25).run 5).1 *
        (Duration.create (SourceBase [1, 2, 3] 100000000 1) 25).sh.durPeriod ≤ 25 := by
  refine ⟨?_, ?_, duration_caps_output.2.2.2.2 (SourceBase [1, 2, 3] 100000000 1) 25 5⟩
  · have h := duration_caps_output.2.1 (.base 100000000 1) ([1, 2, 3] : List ℚ) 5 25 10
      (by decide)
    simpa using h
  · have h := duration_caps_output.2.2.1 (.base 100000000 1) ([1, 2, 3] : List ℚ) 25 25 10
      (by decide)
    rw [h]
    rfl

/-! ### Claim C7 -/

/-- Counterexample to C7 as stated: over a 2-channel inner source,
`Buffered(inner, 1)` pulls two samples at construction, not "up to capacity
= 1": the constructor multiplies the capacity by the channel count. -/
theorem buffered_pull_count_cex :
    (Buffered.create (SourceBase [1, 2, 3, 4] 48000 2) 1).bufferContents.length = 2 ∧
      ¬ ((Buffered.create (SourceBase [1, 2, 3, 4] 48000 2) 1).bufferContents.length ≤ 1) := by
  decide

theorem pullWith_succ_some {σ : Type} (f : σ → Option ℚ × σ) (n : ℕ) (st : σ)
    (x : ℚ) (st' : σ) (h : f st = (some x, st')) :
    pullWith f (n + 1) st = ((pullWith f n st').1.cons x, (pullWith f n st').2) := by
  simp [pullWith, h]

theorem pullWith_succ_none {σ : Type} (f : σ → Option ℚ × σ) (n : ℕ) (st st' : σ)
    (h : f st = (none, st')) : pullWith f (n + 1) st = ([], st') := by
  simp [pullWith, h]

/-- The refill loop over a base stream takes the first `k` samples. -/
theorem pullWith_base (r c : ℕ) : ∀ (k : ℕ) (xs : List ℚ),
    pullWith (Sh.next (.base r c)) k xs = (xs.take k, xs.drop k) := by
  intro k
  induction k with
  | zero => intro xs; simp [pullWith]
  | succ k ih =>
    intro xs
    cases xs with
    | nil =>
      rw [pullWith_succ_none (Sh.next (.base r c)) k [] [] rfl]
      simp
    | cons x t =>
      rw [pullWith_succ_some (Sh.next (.base r c)) k (x :: t) x t rfl, ih]
      simp

/-- Over a base stream, a buffered node whose buffer is only empty when the
stream is exhausted reproduces the stream `buf ++ ys` call for call. -/
theorem buffered_base_stream (r c size : ℕ) (hsize : 0 < size) :
    ∀ (n : ℕ) (buf ys : List ℚ), (buf = [] → ys = []) →
      SrcP.nthOut ⟨.buffered size (.base r c), (buf, ys)⟩ n = (buf ++ ys)[n]? := by
  intro n
  induction n with
  | zero =>
    intro buf ys hinv
    cases buf with
    | nil =>
      have hys := hinv rfl
      subst hys
      simp [SrcP.nthOut, SrcP.next, Sh.next]
    | cons x rest =>
      cases hres : rest.isEmpty <;>
        simp [SrcP.nthOut, SrcP.next, Sh.next, hres]
  | succ n ih =>
    intro buf ys hinv
    rw [SrcP.nthOut_succ]
    cases buf with
    | nil =>
      have hys := hinv rfl
      subst hys
      have hfix : SrcP.step ⟨.buffered size (.base r c), (([] : List ℚ), ([] : List ℚ))⟩ =
          ⟨.buffered size (.base r c), ([], [])⟩ := by
        simp [SrcP.step, SrcP.next, Sh.next]
      rw [hfix]
      simpa using ih [] [] (fun _ => rfl)
    | cons x rest =>
      cases rest with
      | nil =>
        have hstep : SrcP.step ⟨.buffered size (.base r c), (([x] : List ℚ), ys)⟩ =
            ⟨.buffered size (.base r c), (ys.take size, ys.drop size)⟩ := by
          have hp := pullWith_base r c size ys
          simp only [SrcP.step, SrcP.next]
          rw [show Sh.next (.buffered size (.base r c)) (([x] : List ℚ), ys) =
            (some x, ((pullWith (Sh.next (.base r c)) size ys).1,
              (pullWith (Sh.next (.base r c)) size ys).2)) from rfl]
          rw [hp]
        rw [hstep]
        have hinv' : ys.take size = [] → ys.drop size = [] := by
          intro htake
          have : ys = [] := by
            cases ys with
            | nil => rfl
            | cons y t =>
              obtain ⟨k, hk⟩ : ∃ k, size = k + 1 := ⟨size - 1, by omega⟩
              rw [hk] at htake
              simp at htake
          simp [this]
        rw [ih (ys.take size) (ys.drop size) hinv']
        simp
      | cons y t =>
        have hstep : SrcP.step ⟨.buffered size (.base r c), ((x :: y :: t : List ℚ), ys)⟩ =
            ⟨.buffered size (.base r c), (y :: t, ys)⟩ := by
          simp [SrcP.step, SrcP.next, Sh.next]
        rw [hstep]
        rw [ih (y :: t) ys (by simp)]
        simp

/-- C7 amended: `Buffered(inner, capacity)` eagerly pulls up to `capacity *
channel_count` samples (i.e. `capacity` frames) whenever its buffer empties
— including once at construction — serves intermediate calls from the
buffer without touching the inner source, answers none with an unchanged
state once the buffer is empty, and over a base stream reproduces the inner
stream exactly: the `n`-th call yields the inner stream's `n`-th sample, so
end-of-stream occurs exactly when the inner source is exhausted and the
buffer has been fully drained. -/
theorem buffered_frames_capacity :
    (∀ (xs : List ℚ) (r c cap : ℕ),
        Buffered.create (SourceBase xs r c) cap =
          ⟨.buffered (cap * c) (.base r c), (xs.take (cap * c), xs.drop (cap * c))⟩) ∧
    (∀ (sh : Sh) (st : St sh) (size : ℕ) (x y : ℚ) (rest : List ℚ),
        Sh.next (.buffered size sh) (x :: y :: rest, st) = (some x, (y :: rest, st))) ∧
    (∀ (sh : Sh) (st : St sh) (size : ℕ),
        Sh.next (.buffered size sh) ([], st) = (none, ([], st))) ∧
    (∀ (xs : List ℚ) (r c cap n : ℕ), 0 < cap * c →
        SrcP.nthOut (Buffered.create (SourceBase xs r c) cap) n = xs[n]?) := by
  refine ⟨?_, ?_, ?_, ?_⟩
  · intro xs r c cap
    simp [Buffered.create, SourceBase, pullWith_base, Sh.channel_count]
  · intro sh st size x y rest
    simp [Sh.next]
  · intro sh st size
    simp [Sh.next]
  · intro xs r c cap n hpos
    have hcr : Buffered.create (SourceBase xs r c) cap =
        ⟨.buffered (cap * c) (.base r c), (xs.take (cap * c), xs.drop (cap * c))⟩ := by
      simp [Buffered.create, SourceBase, pullWith_base, Sh.channel_count]
    rw [hcr]
    have hinv : xs.take (cap * c) = [] → xs.drop (cap * c) = [] := by
      intro htake
      have : xs = [] := by
        cases xs with
        | nil => rfl
        | cons x t =>
          obtain ⟨k, hk⟩ : ∃ k, cap * c = k + 1 := ⟨cap * c - 1, by omega⟩
          rw [hk] at htake
          simp at htake
      simp [this]
    rw [buffered_base_stream r c (cap * c) hpos n _ _ hinv]
    simp

/-- Witness for C7's amended theorem: `Buffered(base 2-channel stream, cap
1)` holds frames of two samples and reproduces the stream: the second call
yields sample 2, the fifth call (past the stream) yields none. -/
theorem buffered_frames_capacity_witness :
    SrcP.nthOut (Buffered.create (SourceBase [1, 2, 3, 4] 48000 2) 1) 1 = some 2 ∧
      SrcP.nthOut (Buffered.create (SourceBase [1, 2, 3, 4] 48000 2) 1) 4 = none := by
  constructor
  · have h := buffered_frames_capacity.2.2.2 [1, 2, 3, 4] 48000 2 1 1 (by decide)
    rw [h]
    rfl
  · have h := buffered_frames_capacity.2.2.2 [1, 2, 3, 4] 48000 2 1 4 (by decide)
    rw [h]
    rfl

/-! ## Device output hand-off (main.cpp, `device.start` callback)

The callback writes `channel_count * sample_count` samples per invocation:
dequeued (real) samples, or zeros when the queue runs dry.  Outputs are
tagged (`real`/`fill`) so the specification can speak about where real data
lands; the audio written is `OutS.val` of each entry, with `fill` worth
`0.0`, exactly as the `memset` writes.  The queue is modelled as the FIFO of
samples the producer has enqueued: `try_dequeue_bulk(buf, k)` yields
`min(queue length, k)` samples (the sequential behaviour of the SPSC queue;
the producer refills only between invocations). -/

inductive OutS where
  | real (v : ℚ)
  | fill
deriving DecidableEq

/-- Amplitude actually written to the hardware buffer. -/
def OutS.val : OutS → ℚ
  | .real v => v
  | .fill => 0

/-- The callback's `while (samples_remaining > 0)` loop.  `fuel` bounds the
iterations; `remaining` suffices, because with `0 < C` every iteration
consumes at least one sample (with `C = 0` the C++ loop would not
terminate either).  Arguments after the fuel: queue, `samples_remaining`,
`channel_count`, `empty_overlap_count`. -/
def cbLoop : ℕ → List ℚ → ℕ → ℕ → ℕ → List OutS × List ℚ × ℕ
  | 0, q, _, _, ov => ([], q, ov)
  | fuel + 1, q, remaining, C, ov =>
    if remaining = 0 then ([], q, ov)
    else
      let count := min q.length remaining
      if 0 < count then
        let r := cbLoop fuel (q.drop count) (remaining - count) C ov
        ((q.take count).map OutS.real ++ r.1, r.2.1, r.2.2)
      else
        let ov1 := if remaining < C then C - remaining else ov
        let c2 := min remaining C
        let r := cbLoop fuel q (remaining - c2) C ov1
        (List.replicate c2 OutS.fill ++ r.1, r.2.1, r.2.2)

/-- One callback invocation: flush a recorded overlap (when `0 <
empty_overlap_count ≤ samples_remaining`) by zero-filling it first, then run
the dequeue loop. -/
def callback (q : List ℚ) (C sample_count ov : ℕ) : List OutS × List ℚ × ℕ :=
  let total := C * sample_count
  if 0 < ov ∧ ov ≤ total then
    let r := cbLoop total q (total - ov) C 0
    (List.replicate ov OutS.fill ++ r.1, r.2.1, r.2.2)
  else
    cbLoop total q total C ov

/-- A sequence of callback invocations; before each one the producer appends
`enq` to the queue, and the invocation requests `n` frames. -/
def cbRun (C : ℕ) : List (List ℚ × ℕ) → List ℚ → ℕ → List (List OutS) × List ℚ × ℕ
  | [], q, ov => ([], q, ov)
  | (enq, n) :: rs, q, ov =>
    let r := callback (q ++ enq) C n ov
    let rest := cbRun C rs r.2.1 r.2.2
    (r.1 :: rest.1, rest.2.1, rest.2.2)

/-! ### Claim C5 -/

/-- Counterexample to C5 as stated.  Stereo (`C = 2`): the producer has
enqueued three samples (one and a half frames) when a 2-frame callback
arrives; the callback plays them, zero-fills the last slot and records
overlap 1; the next callback zero-fills that 1 and then resumes real data at
buffer offset 1 — channel **1**, not channel 0 of a frame (alignment to the
stream is kept, but the claimed "real data only ever starts at channel 0"
is violated).  Also, with `C = 4`, a request that underruns with remainder
3 records `4 - 3 = 1` — the *complement* of the remainder, not the
remainder itself as the claim reads. -/
theorem device_callback_channel0_cex :
    ((cbRun 2 [([1, 2, 3], 2), ([4, 5, 6, 7], 2)] [] 0).1 =
        [[.real 1, .real 2, .real 3, .fill], [.fill, .real 4, .real 5, .real 6]]) ∧
      (1 % 2 ≠ 0) ∧
      ((callback [9] 4 1 0).1 = [.real 9, .fill, .fill, .fill] ∧
        (callback [9] 4 1 0).2.2 = 1 ∧ (1 : ℕ) ≠ 3) := by
  decide

/-- Zero-fill phase: with an empty queue the loop writes `remaining` zeros,
in chunks of at most `C`, and records `C - remaining mod C` as the new
overlap when the request does not end on a frame boundary. -/
theorem cbLoop_empty (C : ℕ) (hC : 0 < C) : ∀ (fuel remaining ov : ℕ), remaining ≤ fuel →
    cbLoop fuel [] remaining C ov =
      (List.replicate remaining OutS.fill, [],
        if remaining = 0 then ov
        else if remaining % C = 0 then ov else C - remaining % C) := by
  intro fuel
  induction fuel with
  | zero =>
    intro remaining ov h
    have : remaining = 0 := by omega
    subst this
    simp [cbLoop]
  | succ fuel ih =>
    intro remaining ov h
    by_cases h0 : remaining = 0
    · subst h0
      simp [cbLoop]
    · rw [cbLoop]
      rw [if_neg h0]
      simp only [List.length_nil]
      rw [if_neg (by omega)]
      by_cases hlt : remaining < C
      · have hc2 : min remaining C = remaining := by omega
        rw [if_pos hlt, hc2, Nat.sub_self]
        rw [ih 0 (C - remaining) (by omega)]
        have hmod : remaining % C = remaining := Nat.mod_eq_of_lt hlt
        simp [h0, hmod, List.replicate_add]
      · have hc2 : min remaining C = C := by omega
        rw [if_neg hlt, hc2]
        obtain ⟨k, hk⟩ : ∃ k, remaining = C + k := ⟨remaining - C, by omega⟩
        subst hk
        rw [Nat.add_sub_cancel_left]
        rw [ih k ov (by omega)]
        have hmod : (C + k) % C = k % C := Nat.add_mod_left C k
        by_cases hk0 : k = 0
        · subst hk0
          simp [hmod, Nat.mod_self]
        · rw [← List.replicate_add]
          simp only [hmod, hk0, if_neg hk0]
          simp [h0]

/-- Closed form of the dequeue loop: the queue's first `remaining` samples
are written as real data, the shortfall is zero-filled, and the overlap
record is updated exactly when the request ends off a frame boundary. -/
theorem cbLoop_spec (C : ℕ) (hC : 0 < C) : ∀ (fuel : ℕ) (q : List ℚ) (remaining ov : ℕ),
    remaining ≤ fuel →
    cbLoop fuel q remaining C ov =
      ((q.take remaining).map OutS.real ++
          List.replicate (remaining - q.length) OutS.fill,
        q.drop remaining,
        if remaining ≤ q.length then ov
        else if (remaining - q.length) % C = 0 then ov
        else C - (remaining - q.length) % C) := by
  intro fuel
  induction fuel with
  | zero =>
    intro q remaining ov h
    have : remaining = 0 := by omega
    subst this
    simp [cbLoop]
  | succ fuel ih =>
    intro q remaining ov h
    by_cases h0 : remaining = 0
    · subst h0
      simp [cbLoop]
    · cases q with
      | nil =>
        rw [cbLoop_empty C hC (fuel + 1) remaining ov h]
        simp [h0]
      | cons x t =>
        rw [cbLoop, if_neg h0, if_pos (by simp; omega)]
        have hxl : (x :: t).length = t.length + 1 := by simp
        by_cases hql : remaining ≤ (x :: t).length
        · have hcount : min (x :: t).length remaining = remaining := by omega
          rw [hcount, Nat.sub_self, ih ((x :: t).drop remaining) 0 ov (by omega)]
          simp [hql]
          exact ⟨by omega, by rw [if_pos (by omega)]⟩
        · have hlen : (x :: t).length ≤ remaining := by omega
          have hfuel : remaining - (x :: t).length ≤ fuel := by omega
          have hcount : min (x :: t).length remaining = (x :: t).length := by omega
          rw [hcount, List.drop_length, ih [] (remaining - (x :: t).length) ov hfuel,
            List.take_length, List.take_of_length_le hlen,
            List.drop_eq_nil_of_le hlen, if_neg hql]
          simp only [List.take_nil, List.map_nil, List.nil_append, List.length_nil,
            Nat.sub_zero, List.drop_nil]
          rw [if_neg (by omega : ¬ (remaining - (x :: t).length ≤ 0))]

/-- Closed form of one callback invocation (in a valid state: the recorded
overlap is smaller than the channel count, and at least one frame is
requested): the recorded overlap is zero-filled first, then real data, then
the zero-filled shortfall; the new overlap records the complement of the
trailing zero run modulo the channel count. -/
theorem callback_spec (C : ℕ) (hC : 0 < C) (q : List ℚ) (n ov : ℕ)
    (hov : ov < C) (hn : 0 < n) :
    callback q C n ov =
      (List.replicate ov OutS.fill ++
          ((q.take (C * n - ov)).map OutS.real ++
            List.replicate (C * n - ov - q.length) OutS.fill),
        q.drop (C * n - ov),
        if C * n - ov ≤ q.length then 0
        else if (C * n - ov - q.length) % C = 0 then 0
        else C - (C * n - ov - q.length) % C) := by
  have htot : C ≤ C * n := Nat.le_mul_of_pos_right C hn
  rw [callback]
  by_cases hov0 : ov = 0
  · subst hov0
    rw [if_neg (by omega)]
    rw [cbLoop_spec C hC (C * n) q (C * n) 0 (le_refl _)]
    simp
  · rw [if_pos ⟨by omega, by omega⟩]
    rw [cbLoop_spec C hC (C * n) q (C * n - ov) 0 (by omega)]

/-- Number of zero-filled slots in a stretch of callback output. -/
def fillCount (l : List OutS) : ℕ :=
  l.countP (fun o => match o with | .fill => true | .real _ => false)

theorem fillCount_append (a b : List OutS) : fillCount (a ++ b) = fillCount a + fillCount b :=
  List.countP_append _ a b

theorem fillCount_replicate (k : ℕ) : fillCount (List.replicate k OutS.fill) = k := by
  induction k with
  | zero => rfl
  | succ k ih => simp [fillCount, List.replicate_succ, List.countP_cons] at ih ⊢; omega

theorem fillCount_map_real (l : List ℚ) : fillCount (l.map OutS.real) = 0 := by
  induction l with
  | nil => rfl
  | cons x t ih => simp [fillCount, List.countP_cons] at ih ⊢

/-- In a callback output `fill^A ++ real(B) ++ fill^Z`, a real sample sits in
the middle window, and the zeros before it are exactly the `A` flushed
ones. -/
theorem real_window (A : ℕ) (B : List ℚ) (Z : ℕ) (p : ℕ) (v : ℚ)
    (hp : (List.replicate A OutS.fill ++ (B.map OutS.real ++ List.replicate Z OutS.fill))[p]?
      = some (.real v)) :
    A ≤ p ∧
      fillCount
        ((List.replicate A OutS.fill ++ (B.map OutS.real ++ List.replicate Z OutS.fill)).take p)
        = A := by
  have hA : A ≤ p := by
    by_contra hcon
    push_neg at hcon
    rw [List.getElem?_append, if_pos (by simpa using hcon), List.getElem?_replicate,
      if_pos hcon] at hp
    simp at hp
  have hB : p - A < B.length := by
    by_contra hcon
    push_neg at hcon
    rw [List.getElem?_append_right (by simpa using hA)] at hp
    simp only [List.length_replicate] at hp
    rw [List.getElem?_append_right (by simpa using hcon)] at hp
    rw [List.getElem?_replicate] at hp
    split at hp <;> simp_all
  refine ⟨hA, ?_⟩
  rw [List.take_append_eq_append_take, List.take_append_eq_append_take]
  rw [fillCount_append, fillCount_append]
  simp only [List.length_replicate, List.length_map]
  rw [List.take_replicate, Nat.min_eq_right hA, fillCount_replicate]
  rw [← List.map_take, fillCount_map_real]
  have hz0 : p - A - B.length = 0 := by omega
  rw [hz0]
  simp [fillCount]


theorem callback_zero (q : List ℚ) (C ov : ℕ) : callback q C 0 ov = ([], q, ov) := by
  simp only [callback, Nat.mul_zero]
  rw [if_neg (by omega)]
  rfl

/-- The complement recorded on an off-boundary underrun completes the zero
run to a multiple of the channel count. -/
theorem fill_complement (C z : ℕ) (hC : 0 < C) :
    (z + (if z % C = 0 then 0 else C - z % C)) % C = 0 := by
  by_cases hz : z % C = 0
  · simp [hz]
  · rw [if_neg hz]
    have h1 : z % C < C := Nat.mod_lt _ hC
    have h2 : C * (z / C) + z % C = z := Nat.div_add_mod z C
    have h3 : z + (C - z % C) = C * (z / C + 1) := by
      rw [Nat.mul_add, Nat.mul_one]
      omega
    rw [h3, Nat.mul_mod_right]

/-- Alignment invariant across any sequence of callback invocations: if `F`
zeros were written before this run and `(F + ov) % C = 0` (the pending
overlap completes the zeros to whole frames), then every real sample in the
flattened output has a whole number of zero-filled frames before it. -/
theorem cbRun_aligned (C : ℕ) (hC : 0 < C) :
    ∀ (rounds : List (List ℚ × ℕ)) (q : List ℚ) (ov F : ℕ),
      ov < C → (F + ov) % C = 0 →
      ∀ (p : ℕ) (v : ℚ),
        ((cbRun C rounds q ov).1.flatten)[p]? = some (.real v) →
        (F + fillCount (((cbRun C rounds q ov).1.flatten).take p)) % C = 0 := by
  intro rounds
  induction rounds with
  | nil =>
    intro q ov F hov hF p v hp
    simp [cbRun] at hp
  | cons head rs ih =>
    obtain ⟨enq, n⟩ := head
    intro q ov F hov hF p v hp
    by_cases hn : n = 0
    · subst hn
      rw [cbRun] at hp ⊢
      rw [callback_zero] at hp ⊢
      rw [List.flatten_cons, List.nil_append] at hp ⊢
      exact ih (q ++ enq) ov F hov hF p v hp
    · have hn' : 0 < n := by omega
      rw [cbRun] at hp ⊢
      rw [callback_spec C hC (q ++ enq) n ov hov hn'] at hp ⊢
      rw [List.flatten_cons] at hp ⊢
      simp only [] at hp ⊢
      set q' := q ++ enq with hq'
      set k := C * n - ov with hk
      set z := C * n - ov - q'.length with hz
      set ov1 := (if C * n - ov ≤ q'.length then 0
        else if (C * n - ov - q'.length) % C = 0 then 0
        else C - (C * n - ov - q'.length) % C) with hov1
      set out1 := List.replicate ov OutS.fill ++
        ((q'.take k).map OutS.real ++ List.replicate (k - q'.length) OutS.fill) with hout1
      have hz_eq : k - q'.length = z := by omega
      have hov1_lt : ov1 < C := by
        rw [hov1]
        split
        · exact hC
        · split
          · exact hC
          · have : (C * n - ov - q'.length) % C < C := Nat.mod_lt _ hC
            omega
      have hzo : (z + ov1) % C = 0 := by
        rw [hov1]
        by_cases hle : C * n - ov ≤ q'.length
        · rw [if_pos hle]
          have hzz : z = 0 := by omega
          simp [hzz]
        · rw [if_neg hle]
          exact fill_complement C z hC
      have hfc1 : fillCount out1 = ov + z := by
        rw [hout1, fillCount_append, fillCount_append, fillCount_replicate,
          fillCount_map_real, hz_eq, fillCount_replicate]
        omega
      have hF' : ((F + fillCount out1) + ov1) % C = 0 := by
        rw [hfc1]
        have hre : F + (ov + z) + ov1 = (F + ov) + (z + ov1) := by omega
        rw [hre, Nat.add_mod, hF, hzo]
        simp
      by_cases hplen : p < out1.length
      · rw [List.getElem?_append, if_pos hplen] at hp
        have hw := real_window ov (q'.take k) (k - q'.length) p v (by
          rw [← hout1]
          exact hp)
        rw [List.take_append_eq_append_take]
        rw [fillCount_append]
        have htk : List.take (p - out1.length) (cbRun C rs (q'.drop k) ov1).1.flatten = [] := by
          have h0 : p - out1.length = 0 := by omega
          simp [h0]
        rw [htk]
        have hfc_take : fillCount (out1.take p) = ov := by
          rw [hout1]
          exact hw.2
        rw [hfc_take]
        simpa [fillCount] using hF
      · push_neg at hplen
        rw [List.getElem?_append, if_neg (by omega)] at hp
        have hihx := ih (q'.drop k) ov1 (F + fillCount out1) hov1_lt hF'
          (p - out1.length) v hp
        rw [List.take_append_eq_append_take]
        rw [fillCount_append]
        rw [List.take_of_length_le hplen]
        have hre : F + (fillCount out1 +
            fillCount (List.take (p - out1.length) (cbRun C rs (q'.drop k) ov1).1.flatten)) =
            (F + fillCount out1) +
              fillCount (List.take (p - out1.length) (cbRun C rs (q'.drop k) ov1).1.flatten) := by
          omega
        rw [hre]
        exact hihx

/-- C5 amended: (1) each callback invocation first zero-fills exactly the
recorded overlap, then writes dequeued (real) data, then zero-fills any
shortfall, recording `channel_count - (trailing zero run mod channel_count)`
as the overlap for the next invocation (0 on a frame boundary); (2) across
every sequence of invocations the zeros standing before any real sample
total a whole number of frames — so every dequeued sample lands on the
channel it occupies in the produced stream (no channel swap across an
underrun).  Real data need not resume at channel 0 (see the counterexample);
the preserved invariant is channel alignment. -/
theorem device_callback_alignment (C : ℕ) (hC : 0 < C) :
    (∀ (q : List ℚ) (n ov : ℕ), ov < C → 0 < n →
        callback q C n ov =
          (List.replicate ov OutS.fill ++
              ((q.take (C * n - ov)).map OutS.real ++
                List.replicate (C * n - ov - q.length) OutS.fill),
            q.drop (C * n - ov),
            if C * n - ov ≤ q.length then 0
            else if (C * n - ov - q.length) % C = 0 then 0
            else C - (C * n - ov - q.length) % C)) ∧
    (∀ (rounds : List (List ℚ × ℕ)) (p : ℕ) (v : ℚ),
        ((cbRun C rounds [] 0).1.flatten)[p]? = some (.real v) →
        fillCount (((cbRun C rounds [] 0).1.flatten).take p) % C = 0) := by
  refine ⟨fun q n ov hov hn => callback_spec C hC q n ov hov hn, ?_⟩
  intro rounds p v hp
  have h := cbRun_aligned C hC rounds [] 0 0 hC (by simp) p v hp
  simpa using h

/-- Witness for C5's amended theorem: stereo, overlap 1 pending and a
one-frame request with one queued sample gives `[fill, real 1]` and clears
the overlap; and in the counterexample run the real sample at flattened
position 5 has exactly 2 = 1 frame of zeros before it. -/
theorem device_callback_alignment_witness :
    (callback [1] 2 1 1 = ([.fill, .real 1], [], 0)) ∧
      fillCount (((cbRun 2 [([1, 2, 3], 2), ([4, 5, 6, 7], 2)] [] 0).1.flatten).take 5) % 2
        = 0 := by
  constructor
  · have h := (device_callback_alignment 2 (by decide)).1 [1] 1 1 (by decide) (by decide)
    rw [h]
    rfl
  · exact (device_callback_alignment 2 (by decide)).2 [([1, 2, 3], 2), ([4, 5, 6, 7], 2)] 5 4
      (by decide)

/-! ## Render loop (main.cpp, lines 238-266)

State touched by one iteration of the `while (true)` render loop.  The
master output chain's pull result is a parameter (the chain itself is
verified separately); `tanh` and `music::map_seconds_to_resolution` are
opaque external functions, passed as parameters. -/

structure RenderState where
  /-- The moodycamel device queue, FIFO of samples available to the
  hardware callback. -/
  queue : List ℚ
  /-- The `samples` vector accumulated for WAV export. -/
  samples : List ℚ
  /-- `sources`: (start resolution time, source) pairs, sorted descending,
  consumed from the back. -/
  sources : List (ℕ × List ℚ)
  /-- Sources handed to `mixer_controller->add` so far. -/
  added : List (List ℚ)
  time : ℚ
  dt : ℚ

/-- The admission `while (!sources.empty() && back.start <= resolution_time)`
loop, written on the reversed list (the C++ vector is sorted descending and
popped from the back, so the reversed head is the earliest start). -/
def popDue (rt : ℕ) : List (ℕ × List ℚ) → List (ℕ × List ℚ) × List (List ℚ)
  | [] => ([], [])
  | (t, s) :: rest =>
    if t ≤ rt then
      let r := popDue rt rest
      (r.1, s :: r.2)
    else ((t, s) :: rest, [])

def admitDue (mapRes : ℚ → ℕ) (st : RenderState) : RenderState :=
  let rt := mapRes st.time
  let r := popDue rt st.sources.reverse
  { st with sources := r.1.reverse, added := st.added ++ r.2 }

/-- One iteration of the render loop (main.cpp:238-266): pull the master
chain; on a sample, apply `tanh` and append it to the export buffer; on
none, break if no source remains; then admit due sources and advance
virtual time.  The `while(!queue.try_enqueue((float)sample))` line is
commented out in the source, so the device queue is never written.  Returns
the new state and whether the loop breaks. -/
def renderLoopBody (tanhQ : ℚ → ℚ) (mapRes : ℚ → ℕ) (pull : Option ℚ)
    (st : RenderState) : RenderState × Bool :=
  match pull with
  | some v =>
    let st1 := { st with samples := st.samples ++ [tanhQ v] }
    let st2 := admitDue mapRes st1
    ({ st2 with time := st2.time + st2.dt }, false)
  | none =>
    if st.sources.isEmpty then (st, true)
    else
      let st2 := admitDue mapRes st
      ({ st2 with time := st2.time + st2.dt }, false)

/-! ### Claim C9 -/

/-- C9 evaluated on the code: no iteration of the render loop writes to the
device queue — the spin-enqueue `while(!queue.try_enqueue((float)sample));`
is commented out at main.cpp:256 — while pulled samples do reach the export
buffer.  This contradicts the claim that every pulled sample is enqueued
into the device queue with retry-until-success. -/
theorem render_loop_no_enqueue :
    ∀ (tanhQ : ℚ → ℚ) (mapRes : ℚ → ℕ) (pull : Option ℚ) (st : RenderState),
      ((renderLoopBody tanhQ mapRes pull st).1).queue = st.queue := by
  intro tanhQ mapRes pull st
  cases pull with
  | some v => simp [renderLoopBody, admitDue]
  | none =>
    by_cases hs : st.sources.isEmpty <;> simp [renderLoopBody, admitDue, hs]
